import Mathlib

/-!
Shallow embedding of the dissect.xfs on-disk decoding engine
(src/dissect/xfs/xfs.py), used to check the natural-language
specification of the repository against the code.

Bytes are modelled as natural numbers below 256; byte buffers as
`List Nat`; Python's unbounded integers as `Nat` (values produced by
unsigned big-endian reads and bit operations are non-negative) or as
`Int` where Python arithmetic can go negative.
-/

namespace DissectXfs

/-! ### Byte-level utilities -/

/-- Big-endian interpretation of a list of bytes, most significant first.
This is how `c_xfs.uintN` reads fields from the image. -/
def beWord (bs : List Nat) : Nat :=
  bs.foldl (fun acc b => acc * 256 + b) 0

/-- All elements of the list are bytes (below 256). -/
def allBytes (bs : List Nat) : Bool :=
  bs.all (fun b => decide (b < 256))

/-- Big-endian read of `n` bytes of buffer `buf` starting at byte offset
`off` (the `seek(off); read(n)` pattern on a buffered fork). -/
def readBE (buf : List Nat) (off n : Nat) : Nat :=
  beWord ((buf.drop off).take n)

/-- Read `n` consecutive big-endian 64-bit words starting at byte offset
`off`, as `c_xfs.uint64[n](fh)` does after a seek. -/
def readWords (buf : List Nat) (off : Nat) : Nat → List Nat
  | 0 => []
  | n + 1 => readBE buf off 8 :: readWords buf (off + 8) n

/-! ### Extent records: `parse_fsblock` (xfs.py lines 585-598) -/

/-- One unpacked bmbt extent record, the tuple
`(offset, block, count, flag)` returned by `parse_fsblock`. -/
structure Extent where
  offset : Nat
  block : Nat
  count : Nat
  flag : Nat
deriving Repr, DecidableEq

/-- `parse_fsblock(s)`: read the 16-byte record as two big-endian 64-bit
words `l0, l1` and unpack flag/offset/block/count exactly as the source
does. -/
def parse_fsblock (s : List Nat) : Extent :=
  let l0 := beWord (s.take 8)
  let l1 := beWord ((s.drop 8).take 8)
  let flag := l0 >>> 63
  let offset := (l0 &&& ((1 <<< 63) - 1)) >>> 9
  let block := ((l0 &&& ((1 <<< 9) - 1)) <<< 43) ||| (l1 >>> 21)
  let count := l1 &&& ((1 <<< 21) - 1)
  ⟨offset, block, count, flag⟩

/-- `fsb_to_bb(block, agblklog)` (xfs.py lines 601-604). -/
def fsb_to_bb (block agblklog : Nat) : Nat × Nat :=
  (block >>> agblklog, block &&& ((1 <<< agblklog) - 1))

/-- Conversion of a filesystem block to a logical (absolute) block as done
inside `INode.dataruns`: `agnum * sb_agblocks + blknum`. -/
def logicalBlock (agblklog agblocks block : Nat) : Nat :=
  (fsb_to_bb block agblklog).1 * agblocks + (fsb_to_bb block agblklog).2

/-! ### Inode number encoding (xfs.py lines 43-44, 86-95, 254) -/

/-- The superblock geometry fields used by inode-number arithmetic. -/
structure SbGeom where
  sb_agblklog : Nat
  sb_inopblog : Nat
  sb_agblocks : Nat
  sb_inopblock : Nat
  sb_agcount : Nat
deriving Repr, DecidableEq

/-- `_inum_bits = sb_agblklog + sb_inopblog` (xfs.py line 43). -/
def inumBits (sb : SbGeom) : Nat := sb.sb_agblklog + sb.sb_inopblog

/-- `_inum_mask = (1 << _inum_bits) - 1` (xfs.py line 44). -/
def inumMask (sb : SbGeom) : Nat := (1 <<< inumBits sb) - 1

/-- `_inum_max = sb_agblocks * sb_inopblock` (xfs.py line 45). -/
def inumMax (sb : SbGeom) : Nat := sb.sb_agblocks * sb.sb_inopblock

/-- Absolute inode number from `(ag, rel)`:
`(ag_number << (agblklog + inopblog)) | relative_inum` (spec section 3). -/
def composeInum (sb : SbGeom) (ag rel : Nat) : Nat :=
  (ag <<< inumBits sb) ||| rel

/-- Splitting performed by `XFS.get_inode` (xfs.py line 87):
`(absinum >> _inum_bits, absinum & _inum_mask)`. -/
def splitInum (sb : SbGeom) (absinum : Nat) : Nat × Nat :=
  (absinum >>> inumBits sb, absinum &&& inumMask sb)

/-- Error kinds of the repository (exceptions.py): `error` is the base
`Error` class, raised for superblock / AGI / btree / dinode magic
mismatches and out-of-range arguments (the spec's InvalidImage and
InvalidArgument kinds). -/
inductive XfsError where
  | error
  | fileNotFound
  | notADirectory
  | notASymlink
  | symlinkUnavailable
  | unsupportedDatafork
  | notImplementedMultiExtent
deriving Repr, DecidableEq

/-- `XFS.get_inode` followed by `get_relative_inode` and `INode.__init__`
(xfs.py lines 86-95, 254): split the absolute number, range-check both
halves, and rebuild `INode.inum = inum + (ag.num << ag._inum_bits)`. -/
def getInodeNum (sb : SbGeom) (absinum : Nat) : Except XfsError Nat :=
  let agnum := absinum >>> inumBits sb
  let inum := absinum &&& inumMask sb
  if sb.sb_agcount ≤ agnum then .error .error
  else if inumMax sb ≤ inum then .error .error
  else .ok (inum + (agnum <<< inumBits sb))

/-! ### Timestamp decoding: `_parse_ts` (xfs.py lines 607-613) -/

/-- `XFS_DIFLAG2_BIGTIME = 1 << 3` (c_xfs.py). -/
def XFS_DIFLAG2_BIGTIME : Nat := 8

/-- `_parse_ts(ts, is_bigtime)`: bigtime fields are split by
`divmod(ts, 10^9)` with `sec -= 1 << 31`; legacy fields are split as
high and low 32-bit halves. The result can be negative, hence `Int`. -/
def parse_ts (t : Nat) (bigtime : Bool) : Int :=
  if bigtime then
    let sec : Int := ((t / 1000000000 : Nat) : Int) - 2 ^ 31
    let nsec : Int := ((t % 1000000000 : Nat) : Int)
    sec * 1000000000 + nsec
  else
    let sec : Int := ((t >>> 32 : Nat) : Int)
    let nsec : Int := ((t &&& 0xFFFFFFFF : Nat) : Int)
    sec * 1000000000 + nsec

/-- The dinode fields consumed by the timestamp accessors. -/
structure DInode where
  di_version : Nat
  di_flags2 : Nat
  di_atime : Nat
  di_mtime : Nat
  di_ctime : Nat
  di_crtime : Nat
deriving Repr, DecidableEq

/-- `INode._has_bigtime` (xfs.py lines 287-288). -/
def hasBigtime (i : DInode) : Bool :=
  decide (3 ≤ i.di_version) && decide (i.di_flags2 &&& XFS_DIFLAG2_BIGTIME ≠ 0)

/-- `INode.atime_ns` (xfs.py lines 370-371). -/
def atimeNs (i : DInode) : Int := parse_ts i.di_atime (hasBigtime i)

/-- `INode.mtime_ns`. -/
def mtimeNs (i : DInode) : Int := parse_ts i.di_mtime (hasBigtime i)

/-- `INode.ctime_ns`. -/
def ctimeNs (i : DInode) : Int := parse_ts i.di_ctime (hasBigtime i)

/-- `INode.crtime_ns`. -/
def crtimeNs (i : DInode) : Int := parse_ts i.di_crtime (hasBigtime i)

/-! ### Run-list construction: `INode.dataruns` (xfs.py lines 527-550)

`dataruns` consumes the `(offset, block, count, flag)` tuples produced by
`_iter_blocks` (the EXTENTS or BTREE walk).  Python integers can go
negative in `gap = offset - run_offset`, so the running offset and the
run lengths are modelled as `Int`. -/

/-- `expected_runs = (size + block_size - 1) // block_size` (line 531). -/
def expectedRuns (blockSize size : Nat) : Nat :=
  (size + blockSize - 1) / blockSize

/-- The loop body of `INode.dataruns` (lines 533-544): returns the runs
produced and the final `run_offset`. -/
def datarunsFrom (agblklog agblocks : Nat) :
    List Extent → Int → List (Option Nat × Int) × Int
  | [], ro => ([], ro)
  | e :: rest, ro =>
    let gap : List (Option Nat × Int) :=
      if (e.offset : Int) ≠ ro then [((none : Option Nat), (e.offset : Int) - ro)]
      else []
    let ro1 : Int := if (e.offset : Int) ≠ ro then ro + ((e.offset : Int) - ro) else ro
    let lb := logicalBlock agblklog agblocks e.block
    let r := datarunsFrom agblklog agblocks rest (ro1 + e.count)
    (gap ++ (some lb, (e.count : Int)) :: r.1, r.2)

/-- `INode.dataruns()` for an inode whose `_iter_blocks` yields `exts`:
run the loop from `run_offset = 0` and append the trailing hole when
`run_offset < expected_runs` (lines 546-547). -/
def dataruns (agblklog agblocks blockSize size : Nat) (exts : List Extent) :
    List (Option Nat × Int) :=
  let r := datarunsFrom agblklog agblocks exts 0
  let expected : Int := (expectedRuns blockSize size : Nat)
  if r.2 < expected then r.1 ++ [((none : Option Nat), expected - r.2)] else r.1

/-- Sum of the run lengths of a run list. -/
def runSum (runs : List (Option Nat × Int)) : Int :=
  (runs.map (fun r => r.2)).sum

/-- The extent list is sorted by logical offset and non-overlapping when
scanned from logical position `pos`: each extent starts at or after the
running position, which then advances to the extent's end. -/
def extentsOk : List Extent → Nat → Bool
  | [], _ => true
  | e :: rest, pos => decide (pos ≤ e.offset) && extentsOk rest (e.offset + e.count)

/-- Logical end of the extent list: the end of its last extent, or the
default `d` when there is none. -/
def extentsEnd : List Extent → Nat → Nat
  | [], d => d
  | e :: rest, _ => extentsEnd rest (e.offset + e.count)

/-- Hypotheses of the run-list claim: extents sorted and non-overlapping
from position 0, ending at or before `ceil(size / block_size)`. -/
def extentsValid (blockSize size : Nat) (exts : List Extent) : Bool :=
  extentsOk exts 0 && decide (extentsEnd exts 0 ≤ expectedRuns blockSize size)

/-- Modelled from the spec's words (section 4.3.2), for the refinement
part of the run-list claim: emit `(None, gap)` before any extent whose
logical offset exceeds (strictly) the running logical position. -/
def specRunsFrom (agblklog agblocks : Nat) :
    List Extent → Int → List (Option Nat × Int)
  | [], _ => []
  | e :: rest, pos =>
    (if pos < (e.offset : Int) then [((none : Option Nat), (e.offset : Int) - pos)]
     else []) ++
      (some (logicalBlock agblklog agblocks e.block), (e.count : Int)) ::
        specRunsFrom agblklog agblocks rest ((e.offset : Int) + e.count)

/-- Modelled from the spec's words: the full run list, with a trailing
hole exactly when the extents end before `ceil(size / block_size)`. -/
def specDataruns (agblklog agblocks blockSize size : Nat) (exts : List Extent) :
    List (Option Nat × Int) :=
  let expected : Int := (expectedRuns blockSize size : Nat)
  let fin : Int := (extentsEnd exts 0 : Nat)
  specRunsFrom agblklog agblocks exts 0 ++
    (if fin < expected then [((none : Option Nat), expected - fin)] else [])

/-- The starting logical offsets of the runs (prefix sums of the lengths),
including the final end position. -/
def runStarts (runs : List (Option Nat × Int)) : List Int :=
  runs.scanl (fun a r => a + r.2) 0

/-! ### Bmap btree root inside the data fork (`INode._iter_blocks`,
xfs.py lines 557-568) -/

/-- `bb_numrecs` of the `xfs_bmdr_block` root header: the big-endian
16-bit word at byte offset 2 of the data fork (after the 16-bit
`bb_level`). -/
def bmdrNumrecs (fork : List Nat) : Nat := readBE fork 2 2

/-- The pointers traversed by `INode._iter_blocks` for a BTREE-format
inode: `maxrecs = (df.size - 4) // 16`, then `df.seek(4 + maxrecs * 8)`
and read `bb_numrecs` consecutive 64-bit words. -/
def bmdrPtrs (fork : List Nat) : List Nat :=
  let maxrecs := (fork.length - 4) / 16
  readWords fork (4 + maxrecs * 8) (bmdrNumrecs fork)

/-- Modelled from the claim's words (spec section 4.3.2): a 4-byte root
header, then `bb_numrecs` 64-bit keys, then `maxrecs * 8` bytes of
reserved space, then the `bb_numrecs` pointers, placing the pointers at
byte offset `4 + bb_numrecs * 8 + maxrecs * 8`. -/
def bmdrPtrsClaim (fork : List Nat) : List Nat :=
  let maxrecs := (fork.length - 4) / 16
  readWords fork (4 + bmdrNumrecs fork * 8 + maxrecs * 8) (bmdrNumrecs fork)

/-! ### Shortform directory decoding (`INode.iterdir`, xfs.py lines
409-427)

The byte reader is modelled as a function from the remaining buffer to
an optional value and rest; a `none` models the `EOFError` that `c_xfs`
raises on a truncated buffer (which `iterdir` does not catch on the
shortform path). -/

/-- Read one byte. -/
def readU8 : List Nat → Option (Nat × List Nat)
  | [] => none
  | b :: rest => some (b, rest)

/-- Read `n` raw bytes. -/
def readRaw : Nat → List Nat → Option (List Nat × List Nat)
  | 0, bs => some ([], bs)
  | _ + 1, [] => none
  | n + 1, b :: bs =>
    match readRaw n bs with
    | some (v, rest) => some (b :: v, rest)
    | none => none

/-- Read a big-endian 16-bit word. -/
def readU16 (bs : List Nat) : Option (Nat × List Nat) :=
  (readRaw 2 bs).map (fun p => (beWord p.1, p.2))

/-- Read a big-endian 32-bit word. -/
def readU32 (bs : List Nat) : Option (Nat × List Nat) :=
  (readRaw 4 bs).map (fun p => (beWord p.1, p.2))

/-- Read a big-endian 64-bit word. -/
def readU64 (bs : List Nat) : Option (Nat × List Nat) :=
  (readRaw 8 bs).map (fun p => (beWord p.1, p.2))

/-- `xfs_dir2_sf_hdr`: `count` (u8), `i8count` (u8), `parent` (u32). -/
structure SfHdr where
  count : Nat
  i8count : Nat
  parent : Nat
deriving Repr, DecidableEq

/-- Read the shortform header. -/
def readSfHdr (bs : List Nat) : Option (SfHdr × List Nat) :=
  match readU8 bs with
  | none => none
  | some (c, bs) =>
    match readU8 bs with
    | none => none
    | some (i8, bs) =>
      match readU32 bs with
      | none => none
      | some (p, bs) => some (⟨c, i8, p⟩, bs)

/-- A directory entry as yielded by `iterdir`: the name bytes and the
inode number it resolves to. -/
structure DirEnt where
  name : List Nat
  inum : Nat
deriving Repr, DecidableEq

/-- One `xfs_dir2_sf_entry`: `namelen` (u8), `offset` (u16), the name
bytes, an optional file-type byte when the filesystem has the ftype
feature, then the inode number (u64 when `i8count != 0`, else u32)
(xfs.py lines 420-423). -/
def readSfEntry (hasFtype i8 : Bool) (bs : List Nat) :
    Option (DirEnt × List Nat) :=
  match readU8 bs with
  | none => none
  | some (nlen, bs) =>
    match readU16 bs with
    | none => none
    | some (_off, bs) =>
      match readRaw nlen bs with
      | none => none
      | some (nm, bs) =>
        match (if hasFtype then readU8 bs else some (0, bs)) with
        | none => none
        | some (_ft, bs) =>
          match (if i8 then readU64 bs else readU32 bs) with
          | none => none
          | some (inum, bs) => some (⟨nm, inum⟩, bs)

/-- Read `n` consecutive shortform entries. -/
def readSfEntries (hasFtype i8 : Bool) : Nat → List Nat →
    Option (List DirEnt × List Nat)
  | 0, bs => some ([], bs)
  | n + 1, bs =>
    match readSfEntry hasFtype i8 bs with
    | none => none
    | some (e, bs) =>
      match readSfEntries hasFtype i8 n bs with
      | none => none
      | some (es, bs) => some (e :: es, bs)

/-- The parent inode number of a shortform directory: widened by an
additional 32-bit word when `i8count != 0`
(`header.parent = (header.parent << 32) | uint32(buf)`, xfs.py line 414). -/
def sfParent (hdr : SfHdr) (bs : List Nat) : Option (Nat × List Nat) :=
  if hdr.i8count ≠ 0 then
    (readU32 bs).map (fun p => ((hdr.parent <<< 32) ||| p.1, p.2))
  else some (hdr.parent, bs)

/-- The shortform branch of `INode.iterdir` (xfs.py lines 409-427) for a
directory whose own absolute inode number is `selfInum`: yield a
synthetic dot entry, a synthetic dot-dot entry, then the
`header.count` on-disk entries in declaration order.  Names are byte
lists; the dot is byte 46. -/
def iterdirShortform (selfInum : Nat) (hasFtype : Bool) (bs : List Nat) :
    Option (List DirEnt) :=
  match readSfHdr bs with
  | none => none
  | some (hdr, bs) =>
    match sfParent hdr bs with
    | none => none
    | some (parent, bs) =>
      match readSfEntries hasFtype (decide (hdr.i8count ≠ 0)) hdr.count bs with
      | none => none
      | some (entries, _) =>
        some (⟨[46], selfInum⟩ :: ⟨[46, 46], parent⟩ :: entries)

/-! ### Symlink reading and resolution (`INode.link`, `INode.link_inode`,
`XFS.get`, xfs.py lines 58-79, 322-363) -/

/-- `S_IFLNK`. -/
def S_IFLNK : Nat := 0xA000

/-- `xfs_dinode_fmt.XFS_DINODE_FMT_LOCAL` (the enum value after DEV). -/
def XFS_DINODE_FMT_LOCAL : Nat := 1

/-- `XFS_SYMLINK_MAGIC = 0x58534c4d` (c_xfs.py). -/
def XFS_SYMLINK_MAGIC : Nat := 0x58534c4d

/-- `XFS_SB_MAGIC = 0x58465342`. -/
def XFS_SB_MAGIC : Nat := 0x58465342

/-- `XFS_DINODE_MAGIC = 0x494e`. -/
def XFS_DINODE_MAGIC : Nat := 0x494e

/-- The superblock magic validation of `AllocationGroup.__init__`
(xfs.py lines 186-187): a mismatch raises the base `Error` class, the
spec's InvalidImage kind. -/
def checkSbMagic (magic : Nat) : Except XfsError Unit :=
  if magic ≠ XFS_SB_MAGIC then .error .error else .ok ()

/-- The dinode magic validation of `INode._read_inode` (xfs.py lines
276-277): a mismatch raises the base `Error` class. -/
def checkDinodeMagic (magic : Nat) : Except XfsError Unit :=
  if magic ≠ XFS_DINODE_MAGIC then .error .error else .ok ()

/-- The inode state consumed by `INode.link` (xfs.py lines 322-347):
its file type, data-fork format, the filesystem version, the number of
runs of `dataruns()`, the on-disk symlink header magic and the target
bytes that would be read on success. -/
structure SymlinkState where
  filetype : Nat
  di_format : Nat
  version : Nat
  runsCount : Nat
  sl_magic : Nat
  target : List Nat
deriving Repr, DecidableEq

/-- `INode.link`: raise NotASymlink on a non-symlink; for a non-LOCAL
data fork on a v5 filesystem, reject multi-extent symlinks, then
validate the 56-byte symlink header's magic before reading the target
(xfs.py lines 322-347).  The magic-mismatch branch raises
`NotASymlinkError` in the source (line 342). -/
def linkOf (s : SymlinkState) : Except XfsError (List Nat) :=
  if s.filetype ≠ S_IFLNK then .error .notASymlink
  else if s.di_format ≠ XFS_DINODE_FMT_LOCAL ∧ s.version = 5 then
    if 1 < s.runsCount then .error .notImplementedMultiExtent
    else if s.sl_magic ≠ XFS_SYMLINK_MAGIC then .error .notASymlink
    else .ok s.target
  else .ok s.target

/-- `startswith` on character lists, as Python's `str.startswith`. -/
def strStarts : List Char → List Char → Bool
  | [], _ => true
  | _ :: _, [] => false
  | p :: ps, c :: cs => p == c && strStarts ps cs

/-- The relative-node selection of `INode.link_inode` (xfs.py lines
349-363): absolute targets resolve from root (`none`), targets beginning
with `../` require a recorded parent and raise SymlinkUnavailable
without one, and all other targets resolve from the parent (which may be
absent). -/
def linkRelnode (link : List Char) (parent : Option Nat) :
    Except XfsError (Option Nat) :=
  if strStarts ['/'] link then .ok none
  else if strStarts ['.', '.', '/'] link then
    match parent with
    | none => .error .symlinkUnavailable
    | some p => .ok (some p)
  else .ok parent

/-- The start node chosen by `XFS.get` (xfs.py line 62):
`node = node if node else self.root`. -/
def getStart (relnode : Option Nat) (root : Nat) : Nat :=
  relnode.getD root

/-! ### The symlink-dereference loop of `XFS.get` (xfs.py lines 69-70)

`while node.filetype == stat.S_IFLNK: node = node.link_inode` over an
abstract image: `isLink` tells whether an inode is a symlink and `next`
is the inode its `link_inode` resolves to. -/

/-- An abstract image, seen by the symlink-dereference loop. -/
structure LinkWorld where
  isLink : Nat → Bool
  next : Nat → Nat

/-- The loop terminates on `start` precisely when some finite chain of
`link_inode` dereferences reaches a non-symlink. -/
def chaseTerminates (w : LinkWorld) (start : Nat) : Prop :=
  ∃ n, w.isLink (w.next^[n] start) = false

/-- The loop with explicit fuel: `some` is the node the loop exits with,
`none` means the fuel ran out while still on a symlink. -/
def chase (w : LinkWorld) : Nat → Nat → Option Nat
  | 0, node => if w.isLink node then none else some node
  | fuel + 1, node => if w.isLink node then chase w fuel (w.next node) else some node

/-- A two-inode image whose symlinks form the cycle a -> b -> a: inodes
0 and 1 are symlinks, each resolving to the other. -/
def cycleWorld : LinkWorld where
  isLink := fun i => decide (i < 2)
  next := fun i => if i = 0 then 1 else 0

/-- An image where inode 0 is a symlink resolving to the regular inode 1. -/
def straightWorld : LinkWorld where
  isLink := fun i => decide (i = 0)
  next := fun _ => 1

end DissectXfs

namespace DissectXfs

/-! ### Shared bitwise helper lemmas -/

theorem one_shiftLeft (b : Nat) : 1 <<< b = 2 ^ b := by
  rw [Nat.shiftLeft_eq, Nat.one_mul]

theorem or_shift_eq_add {r b : Nat} (a : Nat) (h : r < 2 ^ b) :
    (a <<< b) ||| r = a * 2 ^ b + r := by
  rw [Nat.shiftLeft_eq, Nat.mul_comm a (2 ^ b), ← Nat.mul_add_lt_is_or h a,
    Nat.mul_comm (2 ^ b) a]

theorem or_shift_shiftRight {r b : Nat} (a : Nat) (h : r < 2 ^ b) :
    ((a <<< b) ||| r) >>> b = a := by
  rw [or_shift_eq_add a h, Nat.shiftRight_eq_div_pow, Nat.mul_comm a (2 ^ b),
    Nat.mul_add_div (Nat.pos_pow_of_pos b (by omega)), Nat.div_eq_of_lt h,
    Nat.add_zero]

theorem or_shift_and_mask {r b : Nat} (a : Nat) (h : r < 2 ^ b) :
    ((a <<< b) ||| r) &&& (2 ^ b - 1) = r := by
  rw [or_shift_eq_add a h, Nat.and_pow_two_sub_one_eq_mod, Nat.mul_comm a (2 ^ b),
    Nat.mul_add_mod, Nat.mod_eq_of_lt h]

theorem beWord_foldl_lt (bs : List Nat) (acc : Nat) (h : ∀ b ∈ bs, b < 256) :
    bs.foldl (fun acc b => acc * 256 + b) acc < (acc + 1) * 256 ^ bs.length := by
  induction bs generalizing acc with
  | nil => simp
  | cons x xs ih =>
    have hx : x < 256 := h x (by simp)
    have hxs : ∀ b ∈ xs, b < 256 := fun b hb => h b (by simp [hb])
    have step := ih (acc * 256 + x) hxs
    calc (x :: xs).foldl (fun acc b => acc * 256 + b) acc
        = xs.foldl (fun acc b => acc * 256 + b) (acc * 256 + x) := by simp
      _ < (acc * 256 + x + 1) * 256 ^ xs.length := step
      _ ≤ ((acc + 1) * 256) * 256 ^ xs.length := by
          have : acc * 256 + x + 1 ≤ (acc + 1) * 256 := by omega
          exact Nat.mul_le_mul_right _ this
      _ = (acc + 1) * 256 ^ (x :: xs).length := by
          simp [List.length_cons, Nat.pow_succ]; ring

theorem beWord_lt (bs : List Nat) (h : ∀ b ∈ bs, b < 256) :
    beWord bs < 256 ^ bs.length := by
  have := beWord_foldl_lt bs 0 h
  simpa [beWord] using this

theorem beWord_lt_two_pow_64 (bs : List Nat) (hlen : bs.length ≤ 8)
    (h : ∀ b ∈ bs, b < 256) : beWord bs < 2 ^ 64 := by
  have h1 := beWord_lt bs h
  have h2 : (256 : Nat) ^ bs.length ≤ 256 ^ 8 :=
    Nat.pow_le_pow_right (by omega) hlen
  have h3 : (256 : Nat) ^ 8 = 2 ^ 64 := by norm_num
  omega

theorem parse_ts_bigtime (t : Nat) :
    parse_ts t true = (t : Int) - 2 ^ 31 * 1000000000 := by
  simp only [parse_ts, if_pos]
  push_cast
  omega

/-! ### Claim C2: extent record unpacking -/

/-- Claim C2: extent record unpacking is a pure function of its 16 input
bytes.  Reading the bytes as two big-endian 64-bit words `l0, l1`,
`parse_fsblock` returns `flag = (l0 >> 63) & 1`,
`offset = (l0 >> 9) & (2^54 - 1)`,
`block = ((l0 & 0x1FF) << 43) | (l1 >> 21)` and
`count = l1 & (2^21 - 1)`; consequently `flag ∈ {0, 1}`,
`offset < 2^54`, `block < 2^52` and `count < 2^21`. -/
theorem parse_fsblock_spec (s : List Nat) (hlen : s.length = 16)
    (hbytes : ∀ b ∈ s, b < 256) :
    parse_fsblock s =
      ⟨(beWord (s.take 8) >>> 9) &&& (2 ^ 54 - 1),
       ((beWord (s.take 8) &&& 0x1FF) <<< 43) |||
         (beWord ((s.drop 8).take 8) >>> 21),
       beWord ((s.drop 8).take 8) &&& (2 ^ 21 - 1),
       (beWord (s.take 8) >>> 63) &&& 1⟩ ∧
    ((parse_fsblock s).flag = 0 ∨ (parse_fsblock s).flag = 1) ∧
    (parse_fsblock s).offset < 2 ^ 54 ∧
    (parse_fsblock s).block < 2 ^ 52 ∧
    (parse_fsblock s).count < 2 ^ 21 := by
  have htake : ∀ b ∈ s.take 8, b < 256 := fun b hb =>
    hbytes b (List.mem_of_mem_take hb)
  have hdrop : ∀ b ∈ (s.drop 8).take 8, b < 256 := fun b hb =>
    hbytes b (List.mem_of_mem_drop (List.mem_of_mem_take hb))
  have hl0 : beWord (s.take 8) < 2 ^ 64 :=
    beWord_lt_two_pow_64 _ (by simp) htake
  have hl1 : beWord ((s.drop 8).take 8) < 2 ^ 64 :=
    beWord_lt_two_pow_64 _ (by simp) hdrop
  set l0 := beWord (s.take 8) with hl0def
  set l1 := beWord ((s.drop 8).take 8) with hl1def
  have hmask63 : (1 <<< 63 : Nat) - 1 = 2 ^ 63 - 1 := by rw [one_shiftLeft]
  have hmask9 : (1 <<< 9 : Nat) - 1 = 0x1FF := by decide
  have hmask21 : (1 <<< 21 : Nat) - 1 = 2 ^ 21 - 1 := by decide
  have hoffset : (l0 &&& ((1 <<< 63) - 1)) >>> 9 = (l0 >>> 9) &&& (2 ^ 54 - 1) := by
    rw [hmask63, Nat.and_pow_two_sub_one_eq_mod, Nat.shiftRight_eq_div_pow,
      Nat.shiftRight_eq_div_pow, Nat.and_pow_two_sub_one_eq_mod,
      Nat.div_mod_eq_mod_mul_div]
  have hflag : l0 >>> 63 = (l0 >>> 63) &&& 1 := by
    have hlt : l0 >>> 63 < 2 := by
      rw [Nat.shiftRight_eq_div_pow]
      omega
    have h1 : (1 : Nat) = 2 ^ 1 - 1 := by decide
    rw [h1, Nat.and_pow_two_sub_one_eq_mod, Nat.mod_eq_of_lt (by omega)]
  have hoffbound : (l0 &&& ((1 <<< 63) - 1)) >>> 9 < 2 ^ 54 := by
    rw [hmask63, Nat.and_pow_two_sub_one_eq_mod, Nat.shiftRight_eq_div_pow]
    have : l0 % 2 ^ 63 < 2 ^ 63 := Nat.mod_lt _ (by norm_num)
    omega
  have hblkbound : ((l0 &&& ((1 <<< 9) - 1)) <<< 43) ||| (l1 >>> 21) < 2 ^ 52 := by
    apply Nat.or_lt_two_pow
    · rw [hmask9, Nat.shiftLeft_eq]
      have h9 : l0 &&& 0x1FF < 2 ^ 9 := by
        have : (0x1FF : Nat) = 2 ^ 9 - 1 := by decide
        rw [this, Nat.and_pow_two_sub_one_eq_mod]
        exact Nat.mod_lt _ (by norm_num)
      calc (l0 &&& 0x1FF) * 2 ^ 43 < 2 ^ 9 * 2 ^ 43 :=
        (Nat.mul_lt_mul_right (by norm_num)).mpr h9
        _ = 2 ^ 52 := by norm_num
    · rw [Nat.shiftRight_eq_div_pow]
      have : l1 / 2 ^ 21 < 2 ^ 43 := by omega
      omega
  have hcntbound : l1 &&& ((1 <<< 21) - 1) < 2 ^ 21 := by
    rw [hmask21, Nat.and_pow_two_sub_one_eq_mod]
    exact Nat.mod_lt _ (by norm_num)
  refine ⟨?_, ?_, ?_, ?_, ?_⟩
  · simp only [parse_fsblock, ← hl0def, ← hl1def, Extent.mk.injEq]
    exact ⟨hoffset, by rw [hmask9], by rw [hmask21], hflag⟩
  · have hlt : l0 >>> 63 < 2 := by
      rw [Nat.shiftRight_eq_div_pow]
      omega
    simp only [parse_fsblock, ← hl0def]
    omega
  · simpa only [parse_fsblock, ← hl0def] using hoffbound
  · simpa only [parse_fsblock, ← hl0def, ← hl1def] using hblkbound
  · simpa only [parse_fsblock, ← hl1def] using hcntbound

/-- A 16-byte sample record. -/
def sampleRec : List Nat :=
  [0x80, 0x00, 0x00, 0x00, 0x00, 0x00, 0x0A, 0x01,
   0xFF, 0x00, 0x00, 0x00, 0x00, 0x10, 0x00, 0x07]

theorem parse_fsblock_spec_witness :
    sampleRec.length = 16 ∧ (∀ b ∈ sampleRec, b < 256) ∧
    (parse_fsblock sampleRec).block < 2 ^ 52 := by
  refine ⟨by decide, by decide, ?_⟩
  exact (parse_fsblock_spec sampleRec (by decide) (by decide)).2.2.2.1

/-! ### Claim C3: inode number composition and splitting -/

/-- Claim C3: for a superblock whose `agblklog` and `inopblog` fields
really bound `sb_agblocks` and `sb_inopblock` (they are the recorded
logarithms), splitting the absolute inode number
`(ag << (agblklog + inopblog)) | rel` gives back `(ag, rel)` for every
`rel < sb_agblocks * sb_inopblock`; and whenever the `get_inode` path
accepts an absolute inode number, the constructed inode's `inum` equals
that number. -/
theorem inum_roundtrip (sb : SbGeom) (ag rel absinum n : Nat)
    (hA : sb.sb_agblocks ≤ 2 ^ sb.sb_agblklog)
    (hI : sb.sb_inopblock ≤ 2 ^ sb.sb_inopblog)
    (hrel : rel < inumMax sb) :
    splitInum sb (composeInum sb ag rel) = (ag, rel) ∧
    (getInodeNum sb absinum = .ok n → n = absinum) := by
  have hrel2 : rel < 2 ^ inumBits sb := by
    have hmul : inumMax sb ≤ 2 ^ sb.sb_agblklog * 2 ^ sb.sb_inopblog :=
      Nat.mul_le_mul hA hI
    have hpow : 2 ^ sb.sb_agblklog * 2 ^ sb.sb_inopblog = 2 ^ inumBits sb :=
      (Nat.pow_add 2 _ _).symm
    omega
  constructor
  · have hsplit1 : ((ag <<< inumBits sb) ||| rel) >>> inumBits sb = ag :=
      or_shift_shiftRight ag hrel2
    have hsplit2 : ((ag <<< inumBits sb) ||| rel) &&& inumMask sb = rel := by
      have hmask : inumMask sb = 2 ^ inumBits sb - 1 := by
        rw [inumMask, one_shiftLeft]
      rw [hmask]
      exact or_shift_and_mask ag hrel2
    simp [splitInum, composeInum, hsplit1, hsplit2]
  · intro h
    simp only [getInodeNum] at h
    split at h
    · exact absurd h (by simp)
    · split at h
      · exact absurd h (by simp)
      · have hn : n = (absinum &&& inumMask sb) +
            ((absinum >>> inumBits sb) <<< inumBits sb) := by
          simpa using h.symm
        have hmask : inumMask sb = 2 ^ inumBits sb - 1 := by
          rw [inumMask, one_shiftLeft]
        rw [hn, hmask, Nat.and_pow_two_sub_one_eq_mod, Nat.shiftLeft_eq,
          Nat.shiftRight_eq_div_pow]
        exact Nat.mod_add_div' absinum (2 ^ inumBits sb)

/-- A small superblock geometry for the round-trip witness. -/
def sampleGeom : SbGeom := ⟨2, 2, 4, 4, 3⟩

theorem inum_roundtrip_witness :
    sampleGeom.sb_agblocks ≤ 2 ^ sampleGeom.sb_agblklog ∧
    sampleGeom.sb_inopblock ≤ 2 ^ sampleGeom.sb_inopblog ∧
    5 < inumMax sampleGeom ∧
    (splitInum sampleGeom (composeInum sampleGeom 2 5) = (2, 5) ∧
      (getInodeNum sampleGeom 37 = .ok 37 → (37 : Nat) = 37)) := by
  refine ⟨by decide, by decide, by decide, ?_⟩
  exact inum_roundtrip sampleGeom 2 5 37 37 (by decide) (by decide) (by decide)

/-! ### Claim C4: timestamp decoding -/

/-- Claim C4: for a v3 inode with the BIGTIME flag set in `di_flags2`,
each timestamp accessor decodes the raw unsigned 64-bit value as
`sec = total_ns div 10^9 - 2^31`, `nsec = total_ns mod 10^9` and
returns `sec * 10^9 + nsec = total_ns - 2^31 * 10^9`; for a non-bigtime
inode, the raw value splits into high and low 32-bit halves and the
accessor returns `sec * 10^9 + nsec`. -/
theorem timestamps_decode (i j : DInode)
    (hbig : hasBigtime i = true) (hleg : hasBigtime j = false) :
    (atimeNs i = (((i.di_atime / 1000000000 : Nat) : Int) - 2 ^ 31) * 1000000000 +
        ((i.di_atime % 1000000000 : Nat) : Int) ∧
      atimeNs i = (i.di_atime : Int) - 2 ^ 31 * 1000000000 ∧
      mtimeNs i = (i.di_mtime : Int) - 2 ^ 31 * 1000000000 ∧
      ctimeNs i = (i.di_ctime : Int) - 2 ^ 31 * 1000000000 ∧
      crtimeNs i = (i.di_crtime : Int) - 2 ^ 31 * 1000000000) ∧
    (atimeNs j = ((j.di_atime >>> 32 : Nat) : Int) * 1000000000 +
        ((j.di_atime &&& 0xFFFFFFFF : Nat) : Int) ∧
      mtimeNs j = ((j.di_mtime >>> 32 : Nat) : Int) * 1000000000 +
        ((j.di_mtime &&& 0xFFFFFFFF : Nat) : Int) ∧
      ctimeNs j = ((j.di_ctime >>> 32 : Nat) : Int) * 1000000000 +
        ((j.di_ctime &&& 0xFFFFFFFF : Nat) : Int) ∧
      crtimeNs j = ((j.di_crtime >>> 32 : Nat) : Int) * 1000000000 +
        ((j.di_crtime &&& 0xFFFFFFFF : Nat) : Int)) := by
  constructor
  · refine ⟨?_, ?_, ?_, ?_, ?_⟩
    · simp [atimeNs, hbig, parse_ts]
    · rw [atimeNs, hbig, parse_ts_bigtime]
    · rw [mtimeNs, hbig, parse_ts_bigtime]
    · rw [ctimeNs, hbig, parse_ts_bigtime]
    · rw [crtimeNs, hbig, parse_ts_bigtime]
  · refine ⟨?_, ?_, ?_, ?_⟩ <;>
      simp [atimeNs, mtimeNs, ctimeNs, crtimeNs, hleg, parse_ts]

/-- A bigtime v3 inode sample. -/
def sampleBigInode : DInode := ⟨3, 8, 3000000001, 2, 3, 4⟩

/-- A legacy (v2) inode sample. -/
def sampleLegInode : DInode := ⟨2, 0, (5 <<< 32) + 7, 8, 9, 10⟩

theorem timestamps_decode_witness :
    hasBigtime sampleBigInode = true ∧ hasBigtime sampleLegInode = false ∧
    atimeNs sampleBigInode = (3000000001 : Int) - 2 ^ 31 * 1000000000 := by
  refine ⟨by decide, by decide, ?_⟩
  exact (timestamps_decode sampleBigInode sampleLegInode
    (by decide) (by decide)).1.2.1

/-! ### Claim C5: bigtime conversion, monotonicity and legacy agreement -/

/-- Claim C5: the bigtime conversion is monotonically increasing in the
raw 64-bit input, and for every `sec < 2^31` and `nsec < 10^9`, decoding
the bigtime value `(sec + 2^31) * 10^9 + nsec` equals decoding the
legacy value `(sec << 32) | nsec`. -/
theorem bigtime_monotone_agrees :
    (∀ t1 t2 : Nat, t1 < t2 → parse_ts t1 true < parse_ts t2 true) ∧
    (∀ sec nsec : Nat, sec < 2 ^ 31 → nsec < 1000000000 →
      parse_ts ((sec + 2 ^ 31) * 1000000000 + nsec) true =
        parse_ts ((sec <<< 32) ||| nsec) false) := by
  constructor
  · intro t1 t2 h
    rw [parse_ts_bigtime, parse_ts_bigtime]
    omega
  · intro sec nsec hsec hnsec
    have h32 : nsec < 2 ^ 32 := by omega
    have hhi : ((sec <<< 32) ||| nsec) >>> 32 = sec := or_shift_shiftRight sec h32
    have hlo : ((sec <<< 32) ||| nsec) &&& 0xFFFFFFFF = nsec := by
      have hm : (0xFFFFFFFF : Nat) = 2 ^ 32 - 1 := by decide
      rw [hm]
      exact or_shift_and_mask sec h32
    rw [parse_ts_bigtime]
    simp only [parse_ts, if_neg, Bool.false_eq_true, not_false_iff, hhi, hlo]
    push_cast
    ring

theorem bigtime_monotone_agrees_witness :
    parse_ts 5 true < parse_ts 7 true ∧
    parse_ts ((3 + 2 ^ 31) * 1000000000 + 17) true =
      parse_ts ((3 <<< 32) ||| 17) false :=
  ⟨bigtime_monotone_agrees.1 5 7 (by decide),
   bigtime_monotone_agrees.2 3 17 (by decide) (by decide)⟩

/-! ### Helper lemmas for the run-list claim -/

theorem ite_ro_shift (off ro cnt : Int) :
    (if off ≠ ro then ro + (off - ro) else ro) + cnt = off + cnt := by
  by_cases h : off = ro
  · simp [h]
  · simp only [h, ne_eq, not_false_iff, if_pos]
    ring

theorem datarunsFrom_cons (al ab : Nat) (e : Extent) (rest : List Extent)
    (ro : Int) :
    datarunsFrom al ab (e :: rest) ro =
      ((if (e.offset : Int) ≠ ro
          then [((none : Option Nat), (e.offset : Int) - ro)] else []) ++
        (some (logicalBlock al ab e.block), (e.count : Int)) ::
          (datarunsFrom al ab rest ((e.offset : Int) + e.count)).1,
       (datarunsFrom al ab rest ((e.offset : Int) + e.count)).2) := by
  simp only [datarunsFrom]
  rw [ite_ro_shift]

theorem datarunsFrom_snd (al ab : Nat) :
    ∀ (exts : List Extent) (ro : Int) (d : Nat), ro = (d : Int) →
      (datarunsFrom al ab exts ro).2 = (extentsEnd exts d : Int)
  | [], ro, d, h => by simp [datarunsFrom, extentsEnd, h]
  | e :: rest, ro, d, _ => by
    rw [datarunsFrom_cons, extentsEnd]
    exact datarunsFrom_snd al ab rest ((e.offset : Int) + e.count)
      (e.offset + e.count) (by push_cast; ring)

theorem datarunsFrom_sum (al ab : Nat) :
    ∀ (exts : List Extent) (ro : Int),
      runSum (datarunsFrom al ab exts ro).1 =
        (datarunsFrom al ab exts ro).2 - ro
  | [], ro => by simp [datarunsFrom, runSum]
  | e :: rest, ro => by
    have ih := datarunsFrom_sum al ab rest ((e.offset : Int) + e.count)
    rw [datarunsFrom_cons]
    by_cases h : (e.offset : Int) = ro <;>
      simp only [h, ne_eq, not_false_iff, not_true, if_pos, if_neg,
        not_not, runSum, List.map_append, List.sum_append, List.map_cons,
        List.sum_cons, List.map_nil, List.sum_nil] at ih ⊢ <;>
      omega

theorem datarunsFrom_eq_spec (al ab : Nat) :
    ∀ (exts : List Extent) (pos : Nat), extentsOk exts pos = true →
      (datarunsFrom al ab exts (pos : Int)).1 =
        specRunsFrom al ab exts (pos : Int)
  | [], _, _ => by simp [datarunsFrom, specRunsFrom]
  | e :: rest, pos, h => by
    simp only [extentsOk, Bool.and_eq_true, decide_eq_true_eq] at h
    obtain ⟨hle, hrest⟩ := h
    have ih := datarunsFrom_eq_spec al ab rest (e.offset + e.count) hrest
    rw [datarunsFrom_cons]
    simp only [specRunsFrom]
    have hcast : ((e.offset + e.count : Nat) : Int) =
        (e.offset : Int) + e.count := by push_cast; ring
    rw [hcast] at ih
    rw [ih]
    by_cases hc : (e.offset : Int) = (pos : Int)
    · simp [hc]
    · have hlt : (pos : Int) < (e.offset : Int) := by
        have : (pos : Int) ≤ (e.offset : Int) := by exact_mod_cast hle
        omega
      simp [hc, hlt]

theorem datarunsFrom_nonneg (al ab : Nat) :
    ∀ (exts : List Extent) (pos : Nat), extentsOk exts pos = true →
      ∀ r ∈ (datarunsFrom al ab exts (pos : Int)).1,
        0 ≤ r.2 ∧ (r.1 = none → 0 < r.2)
  | [], _, _ => by simp [datarunsFrom]
  | e :: rest, pos, h => by
    simp only [extentsOk, Bool.and_eq_true, decide_eq_true_eq] at h
    obtain ⟨hle, hrest⟩ := h
    have ih := datarunsFrom_nonneg al ab rest (e.offset + e.count) hrest
    have hcast : ((e.offset + e.count : Nat) : Int) =
        (e.offset : Int) + e.count := by push_cast; ring
    rw [hcast] at ih
    rw [datarunsFrom_cons]
    intro r hr
    simp only [List.mem_append, List.mem_cons] at hr
    rcases hr with hgap | hrun | hrec
    · by_cases hc : (e.offset : Int) = (pos : Int)
      · simp [hc] at hgap
      · have hlt : (pos : Int) < (e.offset : Int) := by
          have : (pos : Int) ≤ (e.offset : Int) := by exact_mod_cast hle
          omega
        simp only [hc, ne_eq, not_false_iff, if_pos, List.mem_singleton] at hgap
        subst hgap
        exact ⟨by simp; omega, fun _ => by simp; omega⟩
    · subst hrun
      exact ⟨by positivity, fun hnone => by simp at hnone⟩
    · exact ih r hrec

theorem scanl_head (f : Int → (Option Nat × Int) → Int) (b : Int)
    (l : List (Option Nat × Int)) : (List.scanl f b l).head? = some b := by
  cases l <;> simp [List.scanl_nil, List.scanl_cons]

theorem scanl_mono :
    ∀ (runs : List (Option Nat × Int)) (s : Int), (∀ r ∈ runs, 0 ≤ r.2) →
      List.Chain' (fun a b => a ≤ b)
        (List.scanl (fun a r => a + r.2) s runs)
  | [], s, _ => by simp [List.scanl_nil]
  | r :: rs, s, h => by
    have hr : 0 ≤ r.2 := h r (by simp)
    have hrs : ∀ x ∈ rs, 0 ≤ x.2 := fun x hx => h x (by simp [hx])
    rw [List.scanl_cons]
    rw [List.singleton_append, List.chain'_cons']
    refine ⟨?_, scanl_mono rs (s + r.2) hrs⟩
    intro y hy
    rw [scanl_head] at hy
    simp only [Option.mem_def, Option.some.injEq] at hy
    omega

/-! ### Claim C1: the run-list partitions the logical block range -/

/-- Claim C1: for an inode whose extent records (as yielded by
`_iter_blocks` in EXTENTS or BTREE format) are sorted by logical offset,
non-overlapping and end at or before `ceil(size / block_size)`, the run
list built by `dataruns()` partitions the file's logical block range:
the lengths sum to `ceil(size / block_size)`; a `(None, gap)` hole run
appears exactly where extents leave a logical-offset gap, including the
trailing hole (the run list equals the one built from the spec's
description); every hole has positive length; and the runs are ordered
by non-decreasing logical start offset (the prefix sums of the lengths
form a non-decreasing chain). -/
theorem dataruns_partition (al ab bs size : Nat) (exts : List Extent)
    (hbs : 0 < bs) (hv : extentsValid bs size exts = true) :
    runSum (dataruns al ab bs size exts) = (expectedRuns bs size : Int) ∧
    dataruns al ab bs size exts = specDataruns al ab bs size exts ∧
    (∀ r ∈ dataruns al ab bs size exts, 0 ≤ r.2 ∧ (r.1 = none → 0 < r.2)) ∧
    List.Chain' (fun a b => a ≤ b)
      (runStarts (dataruns al ab bs size exts)) := by
  simp only [extentsValid, Bool.and_eq_true, decide_eq_true_eq] at hv
  obtain ⟨hok, hend⟩ := hv
  have hF : (datarunsFrom al ab exts 0).2 = (extentsEnd exts 0 : Int) :=
    datarunsFrom_snd al ab exts 0 0 (by norm_num)
  have hsum : runSum (datarunsFrom al ab exts 0).1 =
      (extentsEnd exts 0 : Int) := by
    have := datarunsFrom_sum al ab exts 0
    omega
  have hspec0 : (datarunsFrom al ab exts (0 : Int)).1 =
      specRunsFrom al ab exts (0 : Int) := by
    have := datarunsFrom_eq_spec al ab exts 0 hok
    simpa using this
  have hnn : ∀ r ∈ (datarunsFrom al ab exts (0 : Int)).1,
      0 ≤ r.2 ∧ (r.1 = none → 0 < r.2) := by
    have := datarunsFrom_nonneg al ab exts 0 hok
    simpa using this
  have hendI : (extentsEnd exts 0 : Int) ≤ (expectedRuns bs size : Int) := by
    exact_mod_cast hend
  have hmain : ∀ r ∈ dataruns al ab bs size exts,
      0 ≤ r.2 ∧ (r.1 = none → 0 < r.2) := by
    intro r hr
    simp only [dataruns] at hr
    split at hr
    · rcases List.mem_append.mp hr with h1 | h2
      · exact hnn r h1
      · simp only [List.mem_singleton] at h2
        subst h2
        rename_i hlt
        rw [hF] at hlt
        exact ⟨by simp; omega, fun _ => by simp; omega⟩
    · exact hnn r hr
  refine ⟨?_, ?_, hmain, ?_⟩
  · simp only [dataruns]
    split
    · rename_i hlt
      simp only [runSum, List.map_append, List.sum_append, List.map_cons,
        List.sum_cons, List.map_nil, List.sum_nil]
      have : runSum (datarunsFrom al ab exts 0).1 =
          (extentsEnd exts 0 : Int) := hsum
      simp only [runSum] at this
      omega
    · rename_i hge
      rw [hF] at hge
      have heq : (extentsEnd exts 0 : Int) = (expectedRuns bs size : Int) := by
        omega
      rw [hsum, heq]
  · simp only [dataruns, specDataruns, hF, hspec0]
    split
    · rfl
    · simp
  · exact scanl_mono _ 0 (fun r hr => (hmain r hr).1)

/-- Two sorted non-overlapping extents with an interior gap, for the
run-list witness. -/
def sampleExts : List Extent := [⟨0, 5, 1, 0⟩, ⟨2, 6, 1, 0⟩]

theorem dataruns_partition_witness :
    (0 < 4 ∧ extentsValid 4 10 sampleExts = true) ∧
    runSum (dataruns 2 3 4 10 sampleExts) = (expectedRuns 4 10 : Int) ∧
    dataruns 2 3 4 10 sampleExts = specDataruns 2 3 4 10 sampleExts := by
  refine ⟨⟨by decide, by decide⟩, ?_, ?_⟩
  · exact (dataruns_partition 2 3 4 10 sampleExts (by decide) (by decide)).1
  · exact (dataruns_partition 2 3 4 10 sampleExts (by decide) (by decide)).2.1

/-! ### Claim C6: termination of the symlink-dereference loop -/

theorem cycleWorld_stays_small : ∀ (n x : Nat), x < 2 →
    cycleWorld.next^[n] x < 2
  | 0, _, hx => hx
  | n + 1, x, hx => by
    rw [Function.iterate_succ_apply]
    apply cycleWorld_stays_small n
    simp only [cycleWorld]
    split <;> omega

/-- Claim C6 counterexample: on an image whose symlinks form the cycle
a -> b -> a, the `while node.filetype == S_IFLNK` loop of `XFS.get`
never reaches a non-symlink: no finite number of `link_inode`
dereferences exits the loop, so `get` does not complete. -/
theorem symlink_cycle_diverges : ¬ chaseTerminates cycleWorld 0 := by
  rintro ⟨n, hn⟩
  have h2 : cycleWorld.next^[n] 0 < 2 := cycleWorld_stays_small n 0 (by omega)
  have : cycleWorld.isLink (cycleWorld.next^[n] 0) = true := by
    simp only [cycleWorld, decide_eq_true_eq]
    exact h2
  rw [this] at hn
  exact absurd hn (by simp)

/-- Claim C6 amended: the symlink-dereference loop of `XFS.get`
terminates precisely on inodes from which some finite chain of
`link_inode` dereferences reaches a non-symlink; with enough fuel the
loop then exits with a non-symlink node.  On a cyclic symlink chain
(see the counterexample) no such chain exists and the loop runs
forever. -/
theorem chase_terminates_of_reaches (w : LinkWorld) (start : Nat)
    (h : chaseTerminates w start) :
    ∃ fuel r, chase w fuel start = some r ∧ w.isLink r = false := by
  obtain ⟨n, hn⟩ := h
  suffices key : ∀ (m s : Nat), w.isLink (w.next^[m] s) = false →
      ∃ r, chase w m s = some r ∧ w.isLink r = false by
    obtain ⟨r, h1, h2⟩ := key n start hn
    exact ⟨n, r, h1, h2⟩
  intro m
  induction m with
  | zero =>
    intro s hs
    rw [Function.iterate_zero_apply] at hs
    exact ⟨s, by simp [chase, hs], hs⟩
  | succ m ih =>
    intro s hs
    by_cases hl : w.isLink s
    · rw [Function.iterate_succ_apply] at hs
      obtain ⟨r, h1, h2⟩ := ih (w.next s) hs
      exact ⟨r, by simp [chase, hl, h1], h2⟩
    · rw [Bool.not_eq_true] at hl
      exact ⟨s, by simp [chase, hl], hl⟩

theorem chase_terminates_witness :
    chaseTerminates straightWorld 0 ∧
    (∃ fuel r, chase straightWorld fuel 0 = some r ∧
      straightWorld.isLink r = false) := by
  have hterm : chaseTerminates straightWorld 0 := ⟨1, by decide⟩
  exact ⟨hterm, chase_terminates_of_reaches straightWorld 0 hterm⟩

/-! ### Claim C7: error kind of a symlink header magic mismatch -/

/-- Claim C7 counterexample: on a v5 filesystem, reading `link` of a
symlink inode whose data fork is not LOCAL and fits in one run, with a
bad 56-byte symlink header magic, raises `NotASymlinkError` in the
source (xfs.py line 342) — the same kind as calling `link` on a
non-symlink — and not the base `Error` kind that superblock or dinode
magic mismatches raise. -/
theorem link_bad_magic_kind :
    linkOf ⟨0xA000, 2, 5, 1, 0, []⟩ = .error .notASymlink ∧
    XfsError.notASymlink ≠ XfsError.error ∧
    checkSbMagic 0 = .error .error ∧
    checkDinodeMagic 0 = .error .error :=
  ⟨rfl, by decide, rfl, rfl⟩

/-- Claim C7 amended: on a v5 filesystem, reading `link` of a symlink
inode whose data fork is not LOCAL and fits in a single run fails, when
the symlink header magic differs from `0x58534c4d`, with an error of
kind NotASymlink — the same kind as calling `link` on a non-symlink
inode, and a different kind from the base `Error` used for superblock,
AGI, btree or dinode magic mismatches. -/
theorem link_bad_magic (s : SymlinkState)
    (hft : s.filetype = S_IFLNK)
    (hfmt : s.di_format ≠ XFS_DINODE_FMT_LOCAL)
    (hv : s.version = 5)
    (hruns : s.runsCount ≤ 1)
    (hm : s.sl_magic ≠ XFS_SYMLINK_MAGIC) :
    linkOf s = .error .notASymlink := by
  have hnotlt : ¬ 1 < s.runsCount := by omega
  simp [linkOf, hft, hfmt, hv, hm, hnotlt]

/-- A v5 non-LOCAL single-run symlink state with a bad header magic. -/
def sampleBadSymlink : SymlinkState := ⟨0xA000, 2, 5, 1, 0x1234, [65]⟩

theorem link_bad_magic_witness :
    (sampleBadSymlink.filetype = S_IFLNK ∧
      sampleBadSymlink.di_format ≠ XFS_DINODE_FMT_LOCAL ∧
      sampleBadSymlink.version = 5 ∧ sampleBadSymlink.runsCount ≤ 1 ∧
      sampleBadSymlink.sl_magic ≠ XFS_SYMLINK_MAGIC) ∧
    linkOf sampleBadSymlink = .error .notASymlink := by
  refine ⟨⟨by decide, by decide, by decide, by decide, by decide⟩, ?_⟩
  exact link_bad_magic sampleBadSymlink (by decide) (by decide) (by decide)
    (by decide) (by decide)

/-! ### Claim C8: shortform directory enumeration order -/

theorem readSfEntries_length (hf i8 : Bool) :
    ∀ (n : Nat) (bs : List Nat) (es : List DirEnt) (rest : List Nat),
      readSfEntries hf i8 n bs = some (es, rest) → es.length = n
  | 0, bs, es, rest => by
    intro h
    simp only [readSfEntries, Option.some.injEq, Prod.mk.injEq] at h
    obtain ⟨h1, -⟩ := h
    simp [← h1]
  | n + 1, bs, es, rest => by
    intro h
    cases he : readSfEntry hf i8 bs with
    | none => simp [readSfEntries, he] at h
    | some p =>
      obtain ⟨e, bs1⟩ := p
      cases hes : readSfEntries hf i8 n bs1 with
      | none => simp [readSfEntries, he, hes] at h
      | some q =>
        obtain ⟨es1, bs2⟩ := q
        simp only [readSfEntries, he, hes, Option.some.injEq,
          Prod.mk.injEq] at h
        obtain ⟨h1, -⟩ := h
        have := readSfEntries_length hf i8 n bs1 es1 bs2 hes
        simp [← h1, this]

/-- Claim C8: for a shortform (LOCAL-format) directory whose header,
parent word and `header.count` entries parse successfully, `iterdir`
yields a synthetic dot entry resolving to the directory's own inode
number, then a synthetic dot-dot entry resolving to the parent inode
number from the shortform header (widened by an extra 32-bit word when
`i8count != 0`, as `sfParent` does), and then exactly `header.count`
real entries in their on-disk declaration order. -/
theorem iterdir_shortform_shape (selfInum : Nat) (hf : Bool) (bs : List Nat)
    (hdr : SfHdr) (bs1 : List Nat) (parent : Nat) (bs2 : List Nat)
    (real : List DirEnt) (bs3 : List Nat)
    (h1 : readSfHdr bs = some (hdr, bs1))
    (h2 : sfParent hdr bs1 = some (parent, bs2))
    (h3 : readSfEntries hf (decide (hdr.i8count ≠ 0)) hdr.count bs2 =
      some (real, bs3)) :
    iterdirShortform selfInum hf bs =
      some (⟨[46], selfInum⟩ :: ⟨[46, 46], parent⟩ :: real) ∧
    real.length = hdr.count := by
  constructor
  · simp only [iterdirShortform, h1, h2, h3]
  · exact readSfEntries_length hf _ hdr.count bs2 real bs3 h3

/-- A serialized shortform directory: count 1, i8count 0, parent 7, one
entry named byte 65 with inode number 9. -/
def sampleSfDir : List Nat := [1, 0, 0, 0, 0, 7, 1, 0, 2, 65, 0, 0, 0, 9]

theorem iterdir_shortform_witness :
    readSfHdr sampleSfDir = some (⟨1, 0, 7⟩, [1, 0, 2, 65, 0, 0, 0, 9]) ∧
    iterdirShortform 5 false sampleSfDir =
      some [⟨[46], 5⟩, ⟨[46, 46], 7⟩, ⟨[65], 9⟩] ∧
    ([(⟨[65], 9⟩ : DirEnt)]).length = (1 : Nat) := by
  refine ⟨by decide, ?_, ?_⟩
  · exact (iterdir_shortform_shape 5 false sampleSfDir ⟨1, 0, 7⟩
      [1, 0, 2, 65, 0, 0, 0, 9] 7 [1, 0, 2, 65, 0, 0, 0, 9] [⟨[65], 9⟩] []
      (by decide) (by decide) (by decide)).1
  · exact (iterdir_shortform_shape 5 false sampleSfDir ⟨1, 0, 7⟩
      [1, 0, 2, 65, 0, 0, 0, 9] 7 [1, 0, 2, 65, 0, 0, 0, 9] [⟨[65], 9⟩] []
      (by decide) (by decide) (by decide)).2

/-! ### Claim C9: bmbt root layout inside the data fork -/

theorem readWords_length (buf : List Nat) :
    ∀ (off n : Nat), (readWords buf off n).length = n
  | _, 0 => rfl
  | off, n + 1 => by
    simp [readWords, readWords_length buf (off + 8) n]

theorem readWords_get (buf : List Nat) :
    ∀ (n off k : Nat), k < n →
      (readWords buf off n)[k]? = some (readBE buf (off + 8 * k) 8)
  | 0, _, k, h => absurd h (by omega)
  | n + 1, off, 0, _ => by simp [readWords]
  | n + 1, off, k + 1, h => by
    have ih := readWords_get buf n (off + 8) k (by omega)
    simp only [readWords, List.getElem?_cons_succ]
    rw [ih]
    congr 2
    omega

/-- A 36-byte data fork for a BTREE-format inode: `bb_level = 0`,
`bb_numrecs = 1`, so `maxrecs = (36 - 4) / 16 = 2`; the word at byte
offset `4 + maxrecs * 8 = 20` is 1 and the word at byte offset
`4 + bb_numrecs * 8 + maxrecs * 8 = 28` is 2. -/
def sampleFork : List Nat :=
  [0, 0, 0, 1,
   0, 0, 0, 0, 0, 0, 0, 0, 0, 0, 0, 0, 0, 0, 0, 0,
   0, 0, 0, 0, 0, 0, 0, 1,
   0, 0, 0, 0, 0, 0, 0, 2]

/-- Claim C9 counterexample: `_iter_blocks` reads the root pointers at
data-fork byte offset `4 + maxrecs * 8` (xfs.py line 564), not at
`4 + bb_numrecs * 8 + maxrecs * 8` as the claim's layout would place
them: on a concrete 36-byte fork the traversed pointer list is `[1]`
while the claim's layout yields `[2]`. -/
theorem bmdr_claim_layout_false :
    bmdrPtrs sampleFork = [1] ∧ bmdrPtrsClaim sampleFork = [2] ∧
    bmdrPtrs sampleFork ≠ bmdrPtrsClaim sampleFork := by decide

/-- Claim C9 amended: for an inode in BTREE format the run-list is built
by reading the bmbt root from the data fork laid out as a 4-byte root
header (`bb_level`, `bb_numrecs`) followed by `maxrecs * 8` bytes of key
space (the `bb_numrecs` in-use keys together with the reserved slots)
and then the pointers, where `maxrecs = (forksize - 4) / 16`: the
`bb_numrecs` pointers that are traversed are the consecutive 64-bit
big-endian words starting at data-fork byte offset `4 + maxrecs * 8`. -/
theorem bmdr_ptr_layout (fork : List Nat) (k : Nat)
    (hk : k < bmdrNumrecs fork) :
    (bmdrPtrs fork).length = bmdrNumrecs fork ∧
    (bmdrPtrs fork)[k]? =
      some (readBE fork (4 + ((fork.length - 4) / 16) * 8 + 8 * k) 8) := by
  constructor
  · exact readWords_length fork _ _
  · exact readWords_get fork (bmdrNumrecs fork)
      (4 + ((fork.length - 4) / 16) * 8) k hk

theorem bmdr_ptr_layout_witness :
    0 < bmdrNumrecs sampleFork ∧
    (bmdrPtrs sampleFork).length = bmdrNumrecs sampleFork ∧
    (bmdrPtrs sampleFork)[0]? =
      some (readBE sampleFork (4 + ((sampleFork.length - 4) / 16) * 8 + 8 * 0) 8) := by
  refine ⟨by decide, ?_⟩
  exact bmdr_ptr_layout sampleFork 0 (by decide)

/-! ### Claim C10: SymlinkUnavailable is exactly the parentless `../` case -/

theorem not_slash_of_dotdot (link : List Char)
    (h : strStarts ['.', '.', '/'] link = true) :
    strStarts ['/'] link = false := by
  cases link with
  | nil => simp [strStarts] at h
  | cons c cs =>
    simp only [strStarts, Bool.and_eq_true, beq_iff_eq] at h
    obtain ⟨hc, -⟩ := h
    subst hc
    simp [strStarts]

/-- Claim C10: `link_inode` raises SymlinkUnavailable exactly when the
symlink target begins with `../` and the inode has no recorded parent;
for a target that does not begin with `/` or `../` on an inode with no
recorded parent, no error is raised and the resolution starts from the
root directory. -/
theorem link_relnode_spec (link : List Char) (parent : Option Nat) (root : Nat) :
    (linkRelnode link parent = .error .symlinkUnavailable ↔
      strStarts ['.', '.', '/'] link = true ∧ parent = none) ∧
    (strStarts ['/'] link = false → strStarts ['.', '.', '/'] link = false →
      linkRelnode link none = .ok none ∧ getStart none root = root) := by
  constructor
  · by_cases h1 : strStarts ['/'] link
    · have h2 : strStarts ['.', '.', '/'] link = false := by
        by_cases h2 : strStarts ['.', '.', '/'] link
        · rw [not_slash_of_dotdot link h2] at h1; exact absurd h1 (by simp)
        · exact Bool.not_eq_true _ |>.mp h2
      simp [linkRelnode, h1, h2]
    · rw [Bool.not_eq_true] at h1
      by_cases h2 : strStarts ['.', '.', '/'] link
      · cases parent with
        | none => simp [linkRelnode, h1, h2]
        | some p => simp [linkRelnode, h1, h2]
      · rw [Bool.not_eq_true] at h2
        simp [linkRelnode, h1, h2]
  · intro h1 h2
    simp [linkRelnode, h1, h2, getStart]

theorem link_relnode_witness :
    linkRelnode ['f', 'o', 'o'] none = .ok none ∧ getStart none 7 = 7 :=
  (link_relnode_spec ['f', 'o', 'o'] none 7).2 (by decide) (by decide)

end DissectXfs
